/-
Verification of the multi-armed-bandit policy engine in `Homework2/Bandit.py`.

The Python classes `EpsilonGreedy` and `ThompsonSampling` are embedded as
state-passing functions over explicit record states.  Python `float` rewards
and estimates are modelled as exact rationals (ℚ); Python `int` pseudo-counts
as ℤ / ℕ.  Python list subscription `l[i]` supports negative indices
(`l[-1]` is the last element) and raises `IndexError` outside `[-len, len)`;
this is modelled by `pyGet` / `pySet` over ℤ indices, with `Option` for the
raising read.  Randomness (`random.random()`, `random.randint`,
`random.betavariate`) is modelled by passing the drawn values in as oracle
arguments.
-/
import Mathlib

/-- Python list subscript `l[i]`: negative indices count from the end,
indices outside `[-len l, len l)` raise (here: `none`). -/
def pyGet {α : Type} (l : List α) (i : ℤ) : Option α :=
  if 0 ≤ i then l.get? i.toNat
  else if -(l.length : ℤ) ≤ i then l.get? (i + l.length).toNat
  else none

/-- Python list element assignment `l[i] = a` for an index that was just
read successfully (so `-len l ≤ i < len l`). -/
def pySet {α : Type} (l : List α) (i : ℤ) (a : α) : List α :=
  if 0 ≤ i then l.set i.toNat a
  else l.set (i + l.length).toNat a

/-- Python `max(l)` on a list of numbers (the `[]` case raises in Python and
is given the junk value 0 here; it is never reached by the code). -/
def pyMax (l : List ℚ) : ℚ :=
  match l with
  | [] => 0
  | x :: xs => xs.foldl max x

/-- State of the Python class `EpsilonGreedy(Bandit)`.
`true_means`, `estimated_means`, `action_counts` come from `Bandit.__init__`;
`epsilon` and `action_values` from `EpsilonGreedy.__init__`. -/
structure EGState where
  true_means : List ℚ
  estimated_means : List ℚ
  action_counts : List ℕ
  action_values : List ℚ
  epsilon : ℚ
  deriving DecidableEq

/-- State of the Python class `ThompsonSampling(Bandit)`. -/
structure TSState where
  true_means : List ℚ
  estimated_means : List ℚ
  action_counts : List ℕ
  alpha : List ℤ
  beta : List ℤ
  deriving DecidableEq

/-- `EpsilonGreedy.__init__(true_means, epsilon)`: `Bandit.__init__` zeroes
`estimated_means` and `action_counts`; the subclass re-binds `true_means`,
re-zeroes `action_counts`, and zeroes `action_values`. -/
def EpsilonGreedy.init (true_means : List ℚ) (epsilon : ℚ) : EGState :=
  { true_means := true_means
    estimated_means := List.replicate true_means.length 0
    action_counts := List.replicate true_means.length 0
    action_values := List.replicate true_means.length 0
    epsilon := epsilon }

/-- `ThompsonSampling.__init__(true_means)`: the base fields plus
`alpha = [1]*K`, `beta = [1]*K`. -/
def ThompsonSampling.init (true_means : List ℚ) : TSState :=
  { true_means := true_means
    estimated_means := List.replicate true_means.length 0
    action_counts := List.replicate true_means.length 0
    alpha := List.replicate true_means.length 1
    beta := List.replicate true_means.length 1 }

/-- `EpsilonGreedy.pull(self)`.  `u` is the draw of `random.random()` and
`j` the draw of `random.randint(0, len(true_means) - 1)`; the method has no
assignment, so the state component of the result is the input state. -/
def EpsilonGreedy.pull (s : EGState) (u : ℚ) (j : ℕ) : ℕ × EGState :=
  if u < s.epsilon then (j, s)
  else (s.action_values.indexOf (pyMax s.action_values), s)

/-- `EpsilonGreedy.update(self, arm, reward)`:
`action_counts[arm] += 1; n = action_counts[arm];
action_values[arm] += (1/n) * (reward - action_values[arm])`.
`none` models the `IndexError` raised by the first failing subscript. -/
def EpsilonGreedy.update (s : EGState) (arm : ℤ) (reward : ℚ) : Option EGState :=
  match pyGet s.action_counts arm with
  | none => none
  | some c =>
    let counts := pySet s.action_counts arm (c + 1)
    let n : ℕ := c + 1
    match pyGet s.action_values arm with
    | none => none
    | some v =>
      some { s with action_counts := counts
                    action_values := pySet s.action_values arm (v + (1 / (n : ℚ)) * (reward - v)) }

/-- `EpsilonGreedy.experiment(self, num_trials)`: per trial
`arm = self.pull(); reward = self.true_means[arm]; self.update(arm, reward);
rewards.append(reward)`.  One oracle pair `(u, j)` is consumed per trial, so
the oracle list has length `num_trials`. -/
def EpsilonGreedy.experiment (s : EGState) : List (ℚ × ℕ) → Option (List ℚ × EGState)
  | [] => some ([], s)
  | o :: os =>
    let arm := (EpsilonGreedy.pull s o.1 o.2).1
    match s.true_means.get? arm with
    | none => none
    | some reward =>
      match EpsilonGreedy.update s (arm : ℤ) reward with
      | none => none
      | some s1 =>
        match EpsilonGreedy.experiment s1 os with
        | none => none
        | some (rws, s2) => some (reward :: rws, s2)

/-- `EpsilonGreedy.report(self)`: the two numbers interpolated into the
result string, `avg_reward = sum(action_values)/len(action_values)` and
`avg_regret = max(true_means) - avg_reward`. -/
def EpsilonGreedy.report (s : EGState) : ℚ × ℚ :=
  let avg_reward := s.action_values.sum / (s.action_values.length : ℚ)
  (avg_reward, pyMax s.true_means - avg_reward)

/-- `ThompsonSampling.pull(self)`.  `samples` is the list of the K draws
`random.betavariate(alpha[i], beta[i])`; the method returns
`sampled_means.index(max(sampled_means))` and assigns nothing. -/
def ThompsonSampling.pull (s : TSState) (samples : List ℚ) : ℕ × TSState :=
  (samples.indexOf (pyMax samples), s)

/-- `ThompsonSampling.update(self, arm, reward)`:
`if reward == 1: alpha[arm] += 1 else: beta[arm] += 1`. -/
def ThompsonSampling.update (s : TSState) (arm : ℤ) (reward : ℚ) : Option TSState :=
  if reward = 1 then
    match pyGet s.alpha arm with
    | none => none
    | some a => some { s with alpha := pySet s.alpha arm (a + 1) }
  else
    match pyGet s.beta arm with
    | none => none
    | some b => some { s with beta := pySet s.beta arm (b + 1) }

/-- `ThompsonSampling.experiment(self, num_trials)`: same trial loop as the
epsilon-greedy variant; one oracle entry (the K Beta draws) per trial. -/
def ThompsonSampling.experiment (s : TSState) : List (List ℚ) → Option (List ℚ × TSState)
  | [] => some ([], s)
  | smp :: os =>
    let arm := (ThompsonSampling.pull s smp).1
    match s.true_means.get? arm with
    | none => none
    | some reward =>
      match ThompsonSampling.update s (arm : ℤ) reward with
      | none => none
      | some s1 =>
        match ThompsonSampling.experiment s1 os with
        | none => none
        | some (rws, s2) => some (reward :: rws, s2)

/-- `ThompsonSampling.report(self)`: the two numbers interpolated into the
result string, `avg_reward = sum(alpha) / (sum(alpha) + sum(beta))` and
`avg_regret = max(true_means) - avg_reward`. -/
def ThompsonSampling.report (s : TSState) : ℚ × ℚ :=
  let avg_reward := ((s.alpha.sum : ℤ) : ℚ) / (((s.alpha.sum : ℤ) : ℚ) + ((s.beta.sum : ℤ) : ℚ))
  (avg_reward, pyMax s.true_means - avg_reward)

/-- The `avg_reward` formula exactly as the spec sentence writes it,
`sum(alpha) / sum(alpha) + sum(beta)`, read with the usual precedence
(divide first, then add). -/
def ThompsonSampling.reportSpecLiteral (s : TSState) : ℚ × ℚ :=
  let avg_reward := ((s.alpha.sum : ℤ) : ℚ) / ((s.alpha.sum : ℤ) : ℚ) + ((s.beta.sum : ℤ) : ℚ)
  (avg_reward, pyMax s.true_means - avg_reward)

/-- The spec's report formula with the missing parentheses restored:
`avg_reward = sum(alpha) / (sum(alpha) + sum(beta))`. -/
def ThompsonSampling.reportSpecAmended (s : TSState) : ℚ × ℚ :=
  let avg_reward := ((s.alpha.sum : ℤ) : ℚ) / (((s.alpha.sum : ℤ) : ℚ) + ((s.beta.sum : ℤ) : ℚ))
  (avg_reward, pyMax s.true_means - avg_reward)

/-- A sequence of `update` calls, executed in order; an `IndexError`
anywhere aborts the run. -/
def applyEGUpdates (s : EGState) : List (ℤ × ℚ) → Option EGState
  | [] => some s
  | (a, r) :: us =>
    match EpsilonGreedy.update s a r with
    | none => none
    | some s1 => applyEGUpdates s1 us

/-- A sequence of `ThompsonSampling.update` calls, executed in order. -/
def applyTSUpdates (s : TSState) : List (ℤ × ℚ) → Option TSState
  | [] => some s
  | (a, r) :: us =>
    match ThompsonSampling.update s a r with
    | none => none
    | some s1 => applyTSUpdates s1 us

/-- The rewards of the updates addressed to arm `a`, in call order. -/
def updatesTo (a : ℕ) (us : List (ℕ × ℚ)) : List ℚ :=
  (us.filter (fun p => p.1 == a)).map Prod.snd

/-- Number of updates to arm `a` whose reward equals 1. -/
def onesTo (a : ℕ) (us : List (ℕ × ℚ)) : ℕ :=
  (us.filter (fun p => p.1 == a && p.2 == 1)).length

/-- Number of updates to arm `a` whose reward differs from 1. -/
def nonOnesTo (a : ℕ) (us : List (ℕ × ℚ)) : ℕ :=
  (us.filter (fun p => p.1 == a && !(p.2 == 1))).length

/-- `Visualization.report_cumulative_reward_and_regret`: the cumulative
regret of a reward sequence, `max(true_means) * len(rewards) - sum(rewards)`
(the script binds `true_means` to the module-level `[1, 2, 3, 4]`). -/
def cumulativeRegret (true_means : List ℚ) (rewards : List ℚ) : ℚ :=
  pyMax true_means * (rewards.length : ℚ) - rewards.sum

/-- The module-level `true_means = [1, 2, 3, 4]` of `Bandit.py`. -/
def trueMeansModule : List ℚ := [1, 2, 3, 4]

/-! ### Helper lemmas about the Python-list primitives -/

theorem pyGet_natCast {α : Type} (l : List α) (a : ℕ) : pyGet l (a : ℤ) = l.get? a := by
  simp [pyGet]

theorem pySet_natCast {α : Type} (l : List α) (a : ℕ) (x : α) :
    pySet l (a : ℤ) x = l.set a x := by
  simp [pySet]

theorem pyGet_eq_none {α : Type} (l : List α) (i : ℤ)
    (h : i < -(l.length : ℤ) ∨ (l.length : ℤ) ≤ i) : pyGet l i = none := by
  rcases h with h | h
  · have h0 : ¬ 0 ≤ i := by omega
    have h1 : ¬ -(l.length : ℤ) ≤ i := by omega
    simp [pyGet, h0, h1]
  · have h0 : 0 ≤ i := by omega
    have h1 : l.length ≤ i.toNat := by omega
    simp only [pyGet, if_pos h0]
    exact List.get?_eq_none.2 h1

theorem length_pySet {α : Type} (l : List α) (i : ℤ) (x : α) :
    (pySet l i x).length = l.length := by
  unfold pySet
  split <;> simp

theorem get?_pySet_self {α : Type} (l : List α) (a : ℕ) (x : α) (h : a < l.length) :
    (pySet l (a : ℤ) x).get? a = some x := by
  rw [pySet_natCast]
  exact List.get?_set_eq_of_lt x h

theorem get?_pySet_other {α : Type} (l : List α) (a b : ℕ) (x : α) (h : a ≠ b) :
    (pySet l (a : ℤ) x).get? b = l.get? b := by
  rw [pySet_natCast]
  exact List.get?_set_ne x l h

/-! ### Helper lemmas about `pyMax` and `List.indexOf` -/

theorem le_foldl_max (xs : List ℚ) (init : ℚ) : init ≤ xs.foldl max init := by
  induction xs generalizing init with
  | nil => exact le_rfl
  | cons a xs ih => exact le_trans (le_max_left init a) (ih (max init a))

theorem le_foldl_max_of_mem (xs : List ℚ) (init x : ℚ) (hx : x ∈ xs) :
    x ≤ xs.foldl max init := by
  induction xs generalizing init with
  | nil => cases hx
  | cons a xs ih =>
    rcases List.mem_cons.1 hx with rfl | hmem
    · exact le_trans (le_max_right init x) (le_foldl_max xs (max init x))
    · exact ih (max init a) hmem

theorem foldl_max_mem (xs : List ℚ) (init : ℚ) :
    xs.foldl max init = init ∨ xs.foldl max init ∈ xs := by
  induction xs generalizing init with
  | nil => exact Or.inl rfl
  | cons a xs ih =>
    rcases ih (max init a) with h | h
    · rcases max_choice init a with h2 | h2
      · exact Or.inl (by rw [List.foldl_cons, h, h2])
      · exact Or.inr (by rw [List.foldl_cons, h, h2]; exact List.mem_cons_self a xs)
    · exact Or.inr (List.mem_cons_of_mem a h)

theorem pyMax_mem (l : List ℚ) (h : l ≠ []) : pyMax l ∈ l := by
  match l with
  | x :: xs =>
    have hd : pyMax (x :: xs) = xs.foldl max x := rfl
    rcases foldl_max_mem xs x with h2 | h2
    · rw [hd, h2]; exact List.mem_cons_self x xs
    · rw [hd]; exact List.mem_cons_of_mem x h2

theorem le_pyMax (l : List ℚ) (x : ℚ) (hx : x ∈ l) : x ≤ pyMax l := by
  match l with
  | y :: ys =>
    have hd : pyMax (y :: ys) = ys.foldl max y := rfl
    rcases List.mem_cons.1 hx with rfl | hmem
    · rw [hd]; exact le_foldl_max ys x
    · rw [hd]; exact le_foldl_max_of_mem ys y x hmem

theorem get?_ne_of_lt_indexOf (l : List ℚ) (x : ℚ) (k : ℕ) (hk : k < l.indexOf x) :
    l.get? k ≠ some x := by
  induction l generalizing k with
  | nil => simp [List.indexOf] at hk
  | cons b t ih =>
    by_cases hbx : b = x
    · rw [List.indexOf_cons_eq t hbx] at hk; omega
    · rw [List.indexOf_cons_ne t hbx] at hk
      match k with
      | 0 => simpa using hbx
      | k + 1 =>
        have : k < t.indexOf x := by omega
        simpa using ih k this

theorem get?_replicate_of_lt {α : Type} (x : α) (n a : ℕ) (h : a < n) :
    (List.replicate n x).get? a = some x := by
  simp [List.get?_eq_getElem?, List.getElem?_replicate, h]

theorem lt_length_of_get?_eq_some {α : Type} (l : List α) (n : ℕ) (c : α)
    (h : l.get? n = some c) : n < l.length :=
  (List.get?_eq_some.1 h).1

theorem exists_get?_of_lt {α : Type} (l : List α) (n : ℕ) (h : n < l.length) :
    ∃ c, l.get? n = some c :=
  ⟨l.get ⟨n, h⟩, List.get?_eq_get h⟩

/-! ### Single-step behaviour of `EpsilonGreedy.update` at an in-range arm -/

theorem eg_update_eq (s : EGState) (a : ℕ) (r : ℚ) (c : ℕ) (v : ℚ)
    (hc : s.action_counts.get? a = some c) (hv : s.action_values.get? a = some v) :
    EpsilonGreedy.update s (a : ℤ) r =
      some { s with action_counts := s.action_counts.set a (c + 1)
                    action_values := s.action_values.set a (v + (1 / ((c + 1 : ℕ) : ℚ)) * (r - v)) } := by
  simp only [EpsilonGreedy.update, pyGet_natCast, hc, hv, pySet_natCast]

theorem updatesTo_cons_same (a : ℕ) (r : ℚ) (us : List (ℕ × ℚ)) :
    updatesTo a ((a, r) :: us) = r :: updatesTo a us := by
  simp [updatesTo]

theorem updatesTo_cons_other (a b : ℕ) (r : ℚ) (us : List (ℕ × ℚ)) (h : b ≠ a) :
    updatesTo a ((b, r) :: us) = updatesTo a us := by
  simp [updatesTo, h]

/-- Running a list of in-range `EpsilonGreedy.update` calls succeeds, adds the
number of updates addressed to arm `a` to its count, and drives
`action_values[a]` so that `value * count` accumulates the rewards. -/
theorem applyEG_aux (us : List (ℕ × ℚ)) : ∀ (s : EGState) (a : ℕ) (k : ℕ) (v : ℚ),
    (∀ p ∈ us, p.1 < s.action_counts.length) →
    s.action_values.length = s.action_counts.length →
    s.action_counts.get? a = some k →
    s.action_values.get? a = some v →
    ∃ s1, applyEGUpdates s (us.map (fun p => ((p.1 : ℤ), p.2))) = some s1 ∧
      s1.action_counts.get? a = some (k + (updatesTo a us).length) ∧
      ∃ v1, s1.action_values.get? a = some v1 ∧
        v1 * ((k : ℚ) + ((updatesTo a us).length : ℚ)) = v * (k : ℚ) + (updatesTo a us).sum := by
  induction us with
  | nil =>
    intro s a k v _ _ hk hv
    refine ⟨s, rfl, ?_, v, hv, ?_⟩
    · simpa [updatesTo] using hk
    · simp [updatesTo]
  | cons p rest ih =>
    intro s a k v hval hlen hk hv
    obtain ⟨b, r⟩ := p
    have hb : b < s.action_counts.length := hval (b, r) (List.mem_cons_self _ _)
    have hbv : b < s.action_values.length := by rw [hlen]; exact hb
    obtain ⟨cb, hcb⟩ := exists_get?_of_lt s.action_counts b hb
    obtain ⟨vb, hvb⟩ := exists_get?_of_lt s.action_values b hbv
    have hstep := eg_update_eq s b r cb vb hcb hvb
    obtain ⟨s', hs'⟩ : ∃ s', EpsilonGreedy.update s (b : ℤ) r = some s' := ⟨_, hstep⟩
    have hs'eq : s' =
        { s with action_counts := s.action_counts.set b (cb + 1),
                 action_values := s.action_values.set b (vb + (1 / ((cb + 1 : ℕ) : ℚ)) * (r - vb)) } := by
      rw [hstep] at hs'
      exact (Option.some.inj hs').symm
    have hcounts' : s'.action_counts = s.action_counts.set b (cb + 1) := by rw [hs'eq]
    have hvalues' : s'.action_values =
        s.action_values.set b (vb + (1 / ((cb + 1 : ℕ) : ℚ)) * (r - vb)) := by rw [hs'eq]
    have hexp : applyEGUpdates s (((b, r) :: rest).map (fun p => ((p.1 : ℤ), p.2))) =
        applyEGUpdates s' (rest.map (fun p => ((p.1 : ℤ), p.2))) := by
      simp only [List.map_cons, applyEGUpdates, hs']
    have hval' : ∀ p ∈ rest, p.1 < s'.action_counts.length := by
      intro p hp
      rw [hcounts', List.length_set]
      exact hval p (List.mem_cons_of_mem _ hp)
    have hlen' : s'.action_values.length = s'.action_counts.length := by
      rw [hcounts', hvalues', List.length_set, List.length_set]
      exact hlen
    by_cases hba : b = a
    · subst hba
      have hck : cb = k := Option.some.inj (hcb.symm.trans hk)
      have hvv : vb = v := Option.some.inj (hvb.symm.trans hv)
      subst hck
      subst hvv
      have hk' : s'.action_counts.get? b = some (cb + 1) := by
        rw [hcounts']
        exact List.get?_set_eq_of_lt _ hb
      have hv' : s'.action_values.get? b = some (vb + (1 / ((cb + 1 : ℕ) : ℚ)) * (r - vb)) := by
        rw [hvalues']
        exact List.get?_set_eq_of_lt _ hbv
      obtain ⟨s1, hrun, hcount, v1, hval1, hsum⟩ :=
        ih s' b (cb + 1) (vb + (1 / ((cb + 1 : ℕ) : ℚ)) * (r - vb)) hval' hlen' hk' hv'
      refine ⟨s1, hexp.symm ▸ hrun, ?_, v1, hval1, ?_⟩
      · rw [updatesTo_cons_same]
        have harith : cb + 1 + (updatesTo b rest).length = cb + (r :: updatesTo b rest).length := by
          simp only [List.length_cons]
          omega
        rw [← harith]
        exact hcount
      · rw [updatesTo_cons_same]
        have hnz : ((cb : ℚ) + 1) ≠ 0 := by positivity
        have hcast : ((cb + 1 : ℕ) : ℚ) = (cb : ℚ) + 1 := by push_cast; ring
        rw [hcast] at hsum
        have hlhs : v1 * ((cb : ℚ) + ((r :: updatesTo b rest).length : ℚ)) =
            v1 * (((cb : ℚ) + 1) + ((updatesTo b rest).length : ℚ)) := by
          simp only [List.length_cons]
          push_cast
          ring
        rw [hlhs, hsum]
        have hmul : (vb + 1 / ((cb : ℚ) + 1) * (r - vb)) * ((cb : ℚ) + 1) = vb * (cb : ℚ) + r := by
          field_simp
          ring
        rw [hmul, List.sum_cons]
        ring
    · have hk' : s'.action_counts.get? a = some k := by
        rw [hcounts', List.get?_set_ne _ _ hba]
        exact hk
      have hv' : s'.action_values.get? a = some v := by
        rw [hvalues', List.get?_set_ne _ _ hba]
        exact hv
      obtain ⟨s1, hrun, hcount, v1, hval1, hsum⟩ := ih s' a k v hval' hlen' hk' hv'
      refine ⟨s1, hexp.symm ▸ hrun, ?_, v1, hval1, ?_⟩
      · rw [updatesTo_cons_other a b r rest hba]
        exact hcount
      · rw [updatesTo_cons_other a b r rest hba]
        exact hsum

/-- C1: for `EpsilonGreedy`, after any interleaved in-range update sequence
containing n ≥ 1 updates to arm `a`, `action_counts[a]` is n and
`action_values[a]` is the exact rational arithmetic mean of the rewards
passed for arm `a`; each call performs
`value += (reward - value) / count` with `count` the post-increment count,
as embedded in `EpsilonGreedy.update`. -/
theorem epsilonGreedy_incremental_mean (tm : List ℚ) (eps : ℚ) (us : List (ℕ × ℚ)) (a : ℕ)
    (ha : a < tm.length) (hvalid : ∀ p ∈ us, p.1 < tm.length)
    (hne : updatesTo a us ≠ []) (s : EGState)
    (hrun : applyEGUpdates (EpsilonGreedy.init tm eps)
      (us.map (fun p => ((p.1 : ℤ), p.2))) = some s) :
    s.action_counts.get? a = some (updatesTo a us).length ∧
    s.action_values.get? a =
      some ((updatesTo a us).sum / ((updatesTo a us).length : ℚ)) := by
  have h0c : (EpsilonGreedy.init tm eps).action_counts.get? a = some 0 :=
    get?_replicate_of_lt 0 tm.length a ha
  have h0v : (EpsilonGreedy.init tm eps).action_values.get? a = some 0 :=
    get?_replicate_of_lt 0 tm.length a ha
  have hval : ∀ p ∈ us, p.1 < (EpsilonGreedy.init tm eps).action_counts.length := by
    simpa [EpsilonGreedy.init] using hvalid
  have hlen : (EpsilonGreedy.init tm eps).action_values.length =
      (EpsilonGreedy.init tm eps).action_counts.length := by
    simp [EpsilonGreedy.init]
  obtain ⟨s1, hrun1, hcount, v1, hval1, hsum⟩ :=
    applyEG_aux us (EpsilonGreedy.init tm eps) a 0 0 hval hlen h0c h0v
  have hs : s = s1 := Option.some.inj (hrun.symm.trans hrun1)
  subst hs
  have hlen0 : ((updatesTo a us).length : ℚ) ≠ 0 := by
    have : (updatesTo a us).length ≠ 0 := fun h => hne (List.length_eq_zero.1 h)
    exact_mod_cast Nat.cast_ne_zero.2 this
  refine ⟨by simpa using hcount, ?_⟩
  have hsum' : v1 * ((updatesTo a us).length : ℚ) = (updatesTo a us).sum := by
    have := hsum
    push_cast at this
    linarith
  have hv1 : v1 = (updatesTo a us).sum / ((updatesTo a us).length : ℚ) :=
    (eq_div_iff hlen0).2 hsum'
  rw [← hv1]
  exact hval1

/-- Concrete instance of `epsilonGreedy_incremental_mean`: two arms,
epsilon 0, updates `(0,3), (1,5), (0,7)`; arm 0 ends with count 2 and value
`(3+7)/2 = 5`. -/
theorem epsilonGreedy_incremental_mean_witness :
    (⟨[0, 1], [0, 0], [2, 1], [5, 5], 0⟩ : EGState).action_counts.get? 0 =
        some (updatesTo 0 [(0, 3), (1, 5), (0, 7)]).length ∧
    (⟨[0, 1], [0, 0], [2, 1], [5, 5], 0⟩ : EGState).action_values.get? 0 =
        some ((updatesTo 0 [(0, 3), (1, 5), (0, 7)]).sum /
          ((updatesTo 0 [(0, 3), (1, 5), (0, 7)]).length : ℚ)) :=
  epsilonGreedy_incremental_mean [0, 1] 0 [(0, 3), (1, 5), (0, 7)] 0
    (by decide) (by decide) (by decide) _
    (by norm_num [applyEGUpdates, EpsilonGreedy.update, EpsilonGreedy.init, pyGet, pySet]; decide)

/-! ### Single-step behaviour of `ThompsonSampling.update` at an in-range arm -/

theorem ts_update_eq_one (s : TSState) (a : ℕ) (A : ℤ) (hA : s.alpha.get? a = some A) :
    ThompsonSampling.update s (a : ℤ) 1 = some { s with alpha := s.alpha.set a (A + 1) } := by
  simp only [ThompsonSampling.update, if_pos, pyGet_natCast, hA, pySet_natCast]

theorem ts_update_eq_ne (s : TSState) (a : ℕ) (r : ℚ) (hr : r ≠ 1) (B : ℤ)
    (hB : s.beta.get? a = some B) :
    ThompsonSampling.update s (a : ℤ) r = some { s with beta := s.beta.set a (B + 1) } := by
  simp only [ThompsonSampling.update, if_neg hr, pyGet_natCast, hB, pySet_natCast]

theorem onesTo_add_nonOnesTo (a : ℕ) (us : List (ℕ × ℚ)) :
    onesTo a us + nonOnesTo a us = (updatesTo a us).length := by
  induction us with
  | nil => simp [onesTo, nonOnesTo, updatesTo]
  | cons p rest ih =>
    obtain ⟨b, r⟩ := p
    by_cases h1 : b = a <;> by_cases h2 : r = 1 <;>
      simp [onesTo, nonOnesTo, updatesTo, h1, h2] at ih ⊢ <;> omega

/-- Running a list of in-range `ThompsonSampling.update` calls succeeds and
adds, at each arm `a`, the number of reward-1 updates to `alpha[a]` and the
number of other updates to `beta[a]`. -/
theorem applyTS_aux (us : List (ℕ × ℚ)) : ∀ (s : TSState) (a : ℕ) (A B : ℤ),
    (∀ p ∈ us, p.1 < s.alpha.length ∧ p.1 < s.beta.length) →
    s.alpha.get? a = some A →
    s.beta.get? a = some B →
    ∃ s1, applyTSUpdates s (us.map (fun p => ((p.1 : ℤ), p.2))) = some s1 ∧
      s1.alpha.get? a = some (A + (onesTo a us : ℤ)) ∧
      s1.beta.get? a = some (B + (nonOnesTo a us : ℤ)) := by
  induction us with
  | nil =>
    intro s a A B _ hA hB
    refine ⟨s, rfl, ?_, ?_⟩
    · simpa [onesTo] using hA
    · simpa [nonOnesTo] using hB
  | cons p rest ih =>
    intro s a A B hval hA hB
    obtain ⟨b, r⟩ := p
    have hbα : b < s.alpha.length := (hval (b, r) (List.mem_cons_self _ _)).1
    have hbβ : b < s.beta.length := (hval (b, r) (List.mem_cons_self _ _)).2
    by_cases hr : r = 1
    · subst hr
      obtain ⟨Ab, hAb⟩ := exists_get?_of_lt s.alpha b hbα
      have hstep := ts_update_eq_one s b Ab hAb
      obtain ⟨s', hs'⟩ : ∃ s', ThompsonSampling.update s (b : ℤ) 1 = some s' := ⟨_, hstep⟩
      have hs'eq : s' = { s with alpha := s.alpha.set b (Ab + 1) } := by
        rw [hstep] at hs'
        exact (Option.some.inj hs').symm
      have halpha' : s'.alpha = s.alpha.set b (Ab + 1) := by rw [hs'eq]
      have hbeta' : s'.beta = s.beta := by rw [hs'eq]
      have hexp : applyTSUpdates s (((b, (1 : ℚ)) :: rest).map (fun p => ((p.1 : ℤ), p.2))) =
          applyTSUpdates s' (rest.map (fun p => ((p.1 : ℤ), p.2))) := by
        simp only [List.map_cons, applyTSUpdates, hs']
      have hval' : ∀ p ∈ rest, p.1 < s'.alpha.length ∧ p.1 < s'.beta.length := by
        intro p hp
        rw [halpha', hbeta', List.length_set]
        exact hval p (List.mem_cons_of_mem _ hp)
      by_cases hba : b = a
      · subst hba
        have hAA : Ab = A := Option.some.inj (hAb.symm.trans hA)
        subst hAA
        have hA' : s'.alpha.get? b = some (Ab + 1) := by
          rw [halpha']
          exact List.get?_set_eq_of_lt _ hbα
        have hB' : s'.beta.get? b = some B := by rw [hbeta']; exact hB
        obtain ⟨s1, hrun, hα, hβ⟩ := ih s' b (Ab + 1) B hval' hA' hB'
        refine ⟨s1, hexp.symm ▸ hrun, ?_, ?_⟩
        · have h1 : onesTo b ((b, (1 : ℚ)) :: rest) = onesTo b rest + 1 := by
            simp [onesTo]
          rw [h1]
          have : Ab + 1 + (onesTo b rest : ℤ) = Ab + ((onesTo b rest + 1 : ℕ) : ℤ) := by
            push_cast; ring
          rw [← this]
          exact hα
        · have h2 : nonOnesTo b ((b, (1 : ℚ)) :: rest) = nonOnesTo b rest := by
            simp [nonOnesTo]
          rw [h2]
          exact hβ
      · have hA' : s'.alpha.get? a = some A := by
          rw [halpha', List.get?_set_ne _ _ hba]
          exact hA
        have hB' : s'.beta.get? a = some B := by rw [hbeta']; exact hB
        obtain ⟨s1, hrun, hα, hβ⟩ := ih s' a A B hval' hA' hB'
        refine ⟨s1, hexp.symm ▸ hrun, ?_, ?_⟩
        · have h1 : onesTo a ((b, (1 : ℚ)) :: rest) = onesTo a rest := by
            simp [onesTo, hba]
          rw [h1]
          exact hα
        · have h2 : nonOnesTo a ((b, (1 : ℚ)) :: rest) = nonOnesTo a rest := by
            simp [nonOnesTo, hba]
          rw [h2]
          exact hβ
    · obtain ⟨Bb, hBb⟩ := exists_get?_of_lt s.beta b hbβ
      have hstep := ts_update_eq_ne s b r hr Bb hBb
      obtain ⟨s', hs'⟩ : ∃ s', ThompsonSampling.update s (b : ℤ) r = some s' := ⟨_, hstep⟩
      have hs'eq : s' = { s with beta := s.beta.set b (Bb + 1) } := by
        rw [hstep] at hs'
        exact (Option.some.inj hs').symm
      have halpha' : s'.alpha = s.alpha := by rw [hs'eq]
      have hbeta' : s'.beta = s.beta.set b (Bb + 1) := by rw [hs'eq]
      have hexp : applyTSUpdates s (((b, r) :: rest).map (fun p => ((p.1 : ℤ), p.2))) =
          applyTSUpdates s' (rest.map (fun p => ((p.1 : ℤ), p.2))) := by
        simp only [List.map_cons, applyTSUpdates, hs']
      have hval' : ∀ p ∈ rest, p.1 < s'.alpha.length ∧ p.1 < s'.beta.length := by
        intro p hp
        rw [halpha', hbeta', List.length_set]
        exact hval p (List.mem_cons_of_mem _ hp)
      by_cases hba : b = a
      · subst hba
        have hBB : Bb = B := Option.some.inj (hBb.symm.trans hB)
        subst hBB
        have hA' : s'.alpha.get? b = some A := by rw [halpha']; exact hA
        have hB' : s'.beta.get? b = some (Bb + 1) := by
          rw [hbeta']
          exact List.get?_set_eq_of_lt _ hbβ
        obtain ⟨s1, hrun, hα, hβ⟩ := ih s' b A (Bb + 1) hval' hA' hB'
        refine ⟨s1, hexp.symm ▸ hrun, ?_, ?_⟩
        · have h1 : onesTo b ((b, r) :: rest) = onesTo b rest := by
            simp [onesTo, hr]
          rw [h1]
          exact hα
        · have h2 : nonOnesTo b ((b, r) :: rest) = nonOnesTo b rest + 1 := by
            simp [nonOnesTo, hr]
          rw [h2]
          have : Bb + 1 + (nonOnesTo b rest : ℤ) = Bb + ((nonOnesTo b rest + 1 : ℕ) : ℤ) := by
            push_cast; ring
          rw [← this]
          exact hβ
      · have hA' : s'.alpha.get? a = some A := by rw [halpha']; exact hA
        have hB' : s'.beta.get? a = some B := by
          rw [hbeta', List.get?_set_ne _ _ hba]
          exact hB
        obtain ⟨s1, hrun, hα, hβ⟩ := ih s' a A B hval' hA' hB'
        refine ⟨s1, hexp.symm ▸ hrun, ?_, ?_⟩
        · have h1 : onesTo a ((b, r) :: rest) = onesTo a rest := by
            simp [onesTo, hba]
          rw [h1]
          exact hα
        · have h2 : nonOnesTo a ((b, r) :: rest) = nonOnesTo a rest := by
            simp [nonOnesTo, hba]
          rw [h2]
          exact hβ

/-- C2: for `ThompsonSampling` started from the freshly constructed state,
after any in-range update sequence, `alpha[a] - 1` counts the updates to arm
`a` with reward exactly 1, `beta[a] - 1` counts the rest, and
`alpha[a] + beta[a] - 2` is the total number of updates to arm `a`. -/
theorem thompson_conjugate_counts (tm : List ℚ) (us : List (ℕ × ℚ)) (a : ℕ)
    (ha : a < tm.length) (hvalid : ∀ p ∈ us, p.1 < tm.length) (s : TSState)
    (hrun : applyTSUpdates (ThompsonSampling.init tm)
      (us.map (fun p => ((p.1 : ℤ), p.2))) = some s) :
    ∃ A B : ℤ, pyGet s.alpha (a : ℤ) = some A ∧ pyGet s.beta (a : ℤ) = some B ∧
      A - 1 = (onesTo a us : ℤ) ∧ B - 1 = (nonOnesTo a us : ℤ) ∧
      A + B - 2 = ((updatesTo a us).length : ℤ) := by
  have hA0 : (ThompsonSampling.init tm).alpha.get? a = some 1 :=
    get?_replicate_of_lt 1 tm.length a ha
  have hB0 : (ThompsonSampling.init tm).beta.get? a = some 1 :=
    get?_replicate_of_lt 1 tm.length a ha
  have hval : ∀ p ∈ us, p.1 < (ThompsonSampling.init tm).alpha.length ∧
      p.1 < (ThompsonSampling.init tm).beta.length := by
    intro p hp
    constructor <;> simpa [ThompsonSampling.init] using hvalid p hp
  obtain ⟨s1, hrun1, hα, hβ⟩ := applyTS_aux us (ThompsonSampling.init tm) a 1 1 hval hA0 hB0
  have hs : s = s1 := Option.some.inj (hrun.symm.trans hrun1)
  subst hs
  refine ⟨1 + (onesTo a us : ℤ), 1 + (nonOnesTo a us : ℤ), ?_, ?_, by ring, by ring, ?_⟩
  · rw [pyGet_natCast]
    exact hα
  · rw [pyGet_natCast]
    exact hβ
  · have h := onesTo_add_nonOnesTo a us
    have : ((onesTo a us : ℤ)) + ((nonOnesTo a us : ℤ)) = ((updatesTo a us).length : ℤ) := by
      exact_mod_cast congrArg (Nat.cast : ℕ → ℤ) h
    linarith

/-- Concrete instance of `thompson_conjugate_counts`: two arms, updates
`(0,1), (1,2), (0,1), (0,0)`; arm 0 ends with `alpha[0] = 3`, `beta[0] = 2`. -/
theorem thompson_conjugate_counts_witness :
    ∃ A B : ℤ,
      pyGet (⟨[0, 1], [0, 0], [0, 0], [3, 1], [2, 2]⟩ : TSState).alpha ((0 : ℕ) : ℤ) = some A ∧
      pyGet (⟨[0, 1], [0, 0], [0, 0], [3, 1], [2, 2]⟩ : TSState).beta ((0 : ℕ) : ℤ) = some B ∧
      A - 1 = (onesTo 0 [(0, 1), (1, 2), (0, 1), (0, 0)] : ℤ) ∧
      B - 1 = (nonOnesTo 0 [(0, 1), (1, 2), (0, 1), (0, 0)] : ℤ) ∧
      A + B - 2 = ((updatesTo 0 [(0, 1), (1, 2), (0, 1), (0, 0)]).length : ℤ) :=
  thompson_conjugate_counts [0, 1] [(0, 1), (1, 2), (0, 1), (0, 0)] 0
    (by decide) (by decide) _
    (by norm_num [applyTSUpdates, ThompsonSampling.update, ThompsonSampling.init, pyGet, pySet]; decide)

/-- C3 counterexample: on the freshly constructed two-arm state
(`alpha = beta = [1, 1]`), `report` returns `avg_reward = 1/2`, while the
spec's unparenthesised formula `sum(alpha) / sum(alpha) + sum(beta)`
evaluates to `2/2 + 2 = 3`; the claim's formula is not the one computed. -/
theorem thompson_report_formula_counterexample :
    (ThompsonSampling.report (ThompsonSampling.init [0, 1])).1 = 1 / 2 ∧
    (ThompsonSampling.reportSpecLiteral (ThompsonSampling.init [0, 1])).1 = 3 ∧
    (ThompsonSampling.report (ThompsonSampling.init [0, 1])).1 ≠
      (ThompsonSampling.reportSpecLiteral (ThompsonSampling.init [0, 1])).1 := by
  norm_num [ThompsonSampling.report, ThompsonSampling.reportSpecLiteral,
    ThompsonSampling.init, List.replicate]

/-- C3 amended: `ThompsonSampling.report` computes
`avg_reward = sum(alpha) / (sum(alpha) + sum(beta))` — the spec formula with
the missing parentheses restored — and
`avg_regret = max(true_means) - avg_reward`. -/
theorem thompson_report_eq_specAmended (s : TSState) :
    ThompsonSampling.report s = ThompsonSampling.reportSpecAmended s := rfl

/-- C4 counterexample: `ThompsonSampling([0,1])` then `update(0, 1)` leaves
`alpha = [2, 1]` and `beta = [1, 1]` (not `[1, 2]` as the claim recomputes),
and `report` yields `avg_reward = 3/5`, not `0.5`. -/
theorem thompson_scenario_counterexample :
    ThompsonSampling.update (ThompsonSampling.init [0, 1]) 0 1 =
      some (⟨[0, 1], [0, 0], [0, 0], [2, 1], [1, 1]⟩ : TSState) ∧
    (ThompsonSampling.report (⟨[0, 1], [0, 0], [0, 0], [2, 1], [1, 1]⟩ : TSState)).1 = 3 / 5 ∧
    (3 / 5 : ℚ) ≠ 1 / 2 := by
  refine ⟨?_, ?_, by norm_num⟩
  · norm_num [ThompsonSampling.update, ThompsonSampling.init, pyGet, pySet, List.replicate]
  · norm_num [ThompsonSampling.report]

/-- C4 amended: after `ThompsonSampling([0,1]).update(0, 1)` the state has
`alpha = [2, 1]`, `beta = [1, 1]` (sums 3 and 2) and `report` yields
`avg_reward = 3/5` and `avg_regret = 1 - 3/5 = 2/5`. -/
theorem thompson_scenario_amended :
    ThompsonSampling.update (ThompsonSampling.init [0, 1]) 0 1 =
      some (⟨[0, 1], [0, 0], [0, 0], [2, 1], [1, 1]⟩ : TSState) ∧
    ThompsonSampling.report (⟨[0, 1], [0, 0], [0, 0], [2, 1], [1, 1]⟩ : TSState) =
      (3 / 5, 2 / 5) := by
  constructor
  · norm_num [ThompsonSampling.update, ThompsonSampling.init, pyGet, pySet, List.replicate]
  · norm_num [ThompsonSampling.report, Prod.ext_iff, pyMax]

theorem pyGet_neg {α : Type} (l : List α) (i : ℤ) (h1 : -(l.length : ℤ) ≤ i) (h2 : i < 0) :
    pyGet l i = pyGet l (i + l.length) := by
  have h0 : ¬ 0 ≤ i := by omega
  have h3 : 0 ≤ i + (l.length : ℤ) := by omega
  simp [pyGet, h0, h1, h3]

theorem pySet_neg {α : Type} (l : List α) (i : ℤ) (x : α)
    (h1 : -(l.length : ℤ) ≤ i) (h2 : i < 0) :
    pySet l i x = pySet l (i + l.length) x := by
  have h0 : ¬ 0 ≤ i := by omega
  have h3 : 0 ≤ i + (l.length : ℤ) := by omega
  simp [pySet, h0, h3]

/-- C6 counterexample: `EpsilonGreedy([0,1], 1/5).update(-1, 5)` does not
fail: Python resolves the negative index to arm 1 and silently mutates its
count and value. -/
theorem update_invalid_arm_counterexample :
    EpsilonGreedy.update (EpsilonGreedy.init [0, 1] (1 / 5)) (-1) 5 =
      some (⟨[0, 1], [0, 0], [0, 1], [0, 5], 1 / 5⟩ : EGState) ∧
    (⟨[0, 1], [0, 0], [0, 1], [0, 5], 1 / 5⟩ : EGState).action_counts ≠
      (EpsilonGreedy.init [0, 1] (1 / 5)).action_counts := by
  constructor
  · norm_num [EpsilonGreedy.update, EpsilonGreedy.init, pyGet, pySet, List.replicate]
  · norm_num [EpsilonGreedy.init, List.replicate]

/-- C6 amended: for both variants, `update` with an arm index outside
`[-K, K)` fails with an index error (`none`) before mutating anything, while
a negative index in `[-K, -1]` is remapped Python-style to `K + arm` and the
call behaves exactly like an update of that in-range arm. -/
theorem update_invalid_arm_behavior :
    (∀ (s : EGState) (arm : ℤ) (r : ℚ),
      (arm < -(s.action_counts.length : ℤ) ∨ (s.action_counts.length : ℤ) ≤ arm) →
      EpsilonGreedy.update s arm r = none) ∧
    (∀ (s : TSState) (arm : ℤ) (r : ℚ),
      (arm < -(s.alpha.length : ℤ) ∨ (s.alpha.length : ℤ) ≤ arm) →
      (arm < -(s.beta.length : ℤ) ∨ (s.beta.length : ℤ) ≤ arm) →
      ThompsonSampling.update s arm r = none) ∧
    (∀ (s : EGState) (arm : ℤ) (r : ℚ),
      s.action_values.length = s.action_counts.length →
      -(s.action_counts.length : ℤ) ≤ arm → arm < 0 →
      EpsilonGreedy.update s arm r =
        EpsilonGreedy.update s (arm + s.action_counts.length) r) ∧
    (∀ (s : TSState) (arm : ℤ) (r : ℚ),
      s.beta.length = s.alpha.length →
      -(s.alpha.length : ℤ) ≤ arm → arm < 0 →
      ThompsonSampling.update s arm r =
        ThompsonSampling.update s (arm + s.alpha.length) r) := by
  refine ⟨?_, ?_, ?_, ?_⟩
  · intro s arm r h
    simp only [EpsilonGreedy.update, pyGet_eq_none s.action_counts arm h]
  · intro s arm r hα hβ
    by_cases hr : r = 1
    · simp only [ThompsonSampling.update, if_pos hr, pyGet_eq_none s.alpha arm hα]
    · simp only [ThompsonSampling.update, if_neg hr, pyGet_eq_none s.beta arm hβ]
  · intro s arm r hlen h1 h2
    have h1v : -(s.action_values.length : ℤ) ≤ arm := by rw [hlen]; exact h1
    simp only [EpsilonGreedy.update, pyGet_neg s.action_counts arm h1 h2,
      pySet_neg s.action_counts arm _ h1 h2, pyGet_neg s.action_values arm h1v h2,
      pySet_neg s.action_values arm _ h1v h2, hlen]
  · intro s arm r hlen h1 h2
    have h1β : -(s.beta.length : ℤ) ≤ arm := by rw [hlen]; exact h1
    by_cases hr : r = 1
    · simp only [ThompsonSampling.update, if_pos hr, pyGet_neg s.alpha arm h1 h2,
        pySet_neg s.alpha arm _ h1 h2]
    · simp only [ThompsonSampling.update, if_neg hr, pyGet_neg s.beta arm h1β h2,
        pySet_neg s.beta arm _ h1β h2, hlen]

/-- Concrete instances of `update_invalid_arm_behavior`: with two arms,
`update(2, r)` fails for both variants, and `update(-1, r)` behaves as
`update(1, r)`. -/
theorem update_invalid_arm_behavior_witness :
    EpsilonGreedy.update (EpsilonGreedy.init [0, 1] 0) 2 5 = none ∧
    ThompsonSampling.update (ThompsonSampling.init [0, 1]) 2 1 = none ∧
    EpsilonGreedy.update (EpsilonGreedy.init [0, 1] 0) (-1) 5 =
      EpsilonGreedy.update (EpsilonGreedy.init [0, 1] 0) ((-1) + 2) 5 ∧
    ThompsonSampling.update (ThompsonSampling.init [0, 1]) (-1) 1 =
      ThompsonSampling.update (ThompsonSampling.init [0, 1]) ((-1) + 2) 1 := by
  refine ⟨?_, ?_, ?_, ?_⟩
  · exact update_invalid_arm_behavior.1 (EpsilonGreedy.init [0, 1] 0) 2 5 (by right; decide)
  · exact update_invalid_arm_behavior.2.1 (ThompsonSampling.init [0, 1]) 2 1
      (by right; decide) (by right; decide)
  · exact update_invalid_arm_behavior.2.2.1 (EpsilonGreedy.init [0, 1] 0) (-1) 5
      (by decide) (by decide) (by decide)
  · exact update_invalid_arm_behavior.2.2.2 (ThompsonSampling.init [0, 1]) (-1) 1
      (by decide) (by decide) (by decide)

/-- C7: with `epsilon = 0`, `EpsilonGreedy.pull` ignores the random draws
(`random.random()` returns `u ≥ 0`, so `u < 0` is never true) and returns
`action_values.index(max(action_values))`: the smallest index holding the
maximum of `action_values`. -/
theorem epsilonGreedy_select_greedy (s : EGState) (hε : s.epsilon = 0) (u : ℚ) (hu : 0 ≤ u)
    (j : ℕ) (hne : s.action_values ≠ []) :
    (EpsilonGreedy.pull s u j).1 = s.action_values.indexOf (pyMax s.action_values) ∧
    (EpsilonGreedy.pull s u j).1 < s.action_values.length ∧
    s.action_values.get? (EpsilonGreedy.pull s u j).1 = some (pyMax s.action_values) ∧
    (∀ x ∈ s.action_values, x ≤ pyMax s.action_values) ∧
    (∀ k, k < (EpsilonGreedy.pull s u j).1 →
      s.action_values.get? k ≠ some (pyMax s.action_values)) := by
  have hnot : ¬ u < s.epsilon := by rw [hε]; exact not_lt.2 hu
  have hpull : (EpsilonGreedy.pull s u j).1 =
      s.action_values.indexOf (pyMax s.action_values) := by
    simp [EpsilonGreedy.pull, hnot]
  have hmem : pyMax s.action_values ∈ s.action_values := pyMax_mem s.action_values hne
  refine ⟨hpull, ?_, ?_, fun x hx => le_pyMax s.action_values x hx, ?_⟩
  · rw [hpull]
    exact List.indexOf_lt_length.2 hmem
  · rw [hpull]
    exact List.indexOf_get? hmem
  · intro k hk
    rw [hpull] at hk
    exact get?_ne_of_lt_indexOf s.action_values (pyMax s.action_values) k hk

/-- Concrete instance of `epsilonGreedy_select_greedy`: values `[2, 5, 5]`,
any draws; the selected arm is 1, the first index holding the maximum 5. -/
theorem epsilonGreedy_select_greedy_witness :
    (EpsilonGreedy.pull (⟨[0, 0, 0], [0, 0, 0], [0, 0, 0], [2, 5, 5], 0⟩ : EGState) 0 7).1 =
      ([2, 5, 5] : List ℚ).indexOf (pyMax [2, 5, 5]) ∧
    (EpsilonGreedy.pull (⟨[0, 0, 0], [0, 0, 0], [0, 0, 0], [2, 5, 5], 0⟩ : EGState) 0 7).1 <
      ([2, 5, 5] : List ℚ).length ∧
    ([2, 5, 5] : List ℚ).get?
        (EpsilonGreedy.pull (⟨[0, 0, 0], [0, 0, 0], [0, 0, 0], [2, 5, 5], 0⟩ : EGState) 0 7).1 =
      some (pyMax [2, 5, 5]) ∧
    (∀ x ∈ ([2, 5, 5] : List ℚ), x ≤ pyMax [2, 5, 5]) ∧
    (∀ k, k < (EpsilonGreedy.pull
        (⟨[0, 0, 0], [0, 0, 0], [0, 0, 0], [2, 5, 5], 0⟩ : EGState) 0 7).1 →
      ([2, 5, 5] : List ℚ).get? k ≠ some (pyMax [2, 5, 5])) :=
  epsilonGreedy_select_greedy (⟨[0, 0, 0], [0, 0, 0], [0, 0, 0], [2, 5, 5], 0⟩ : EGState)
    rfl 0 le_rfl 7 (by decide)

/-- C8: `pull` (`select`) mutates nothing for either variant: the state after
the call is the state before it, for every state and every outcome of the
random draws, so `action_counts`, `action_values`, `alpha`, `beta`,
`estimated_means` and `true_means` are all unchanged. -/
theorem pull_leaves_state_unchanged :
    (∀ (s : EGState) (u : ℚ) (j : ℕ), (EpsilonGreedy.pull s u j).2 = s) ∧
    (∀ (s : TSState) (samples : List ℚ), (ThompsonSampling.pull s samples).2 = s) := by
  constructor
  · intro s u j
    unfold EpsilonGreedy.pull
    split <;> rfl
  · intro s samples
    rfl

/-- C9: the cumulative regret computed by the reporter,
`max(true_means) * len(rewards) - sum(rewards)`, is non-negative whenever
every reward is at most `max(true_means)`. -/
theorem cumulative_regret_nonneg (tm rewards : List ℚ)
    (h : ∀ r ∈ rewards, r ≤ pyMax tm) : 0 ≤ cumulativeRegret tm rewards := by
  induction rewards with
  | nil => simp [cumulativeRegret]
  | cons r rs ih =>
    have hr : r ≤ pyMax tm := h r (List.mem_cons_self _ _)
    have hih : 0 ≤ cumulativeRegret tm rs := ih fun x hx => h x (List.mem_cons_of_mem _ hx)
    unfold cumulativeRegret at hih ⊢
    simp only [List.sum_cons, List.length_cons]
    push_cast
    nlinarith [hih, hr]

/-- Concrete instance of `cumulative_regret_nonneg`: `true_means = [1, 2]`,
rewards `[1, 2, 2]`, regret `2*3 - 5 = 1 ≥ 0`. -/
theorem cumulative_regret_nonneg_witness :
    0 ≤ cumulativeRegret [1, 2] [1, 2, 2] :=
  cumulative_regret_nonneg [1, 2] [1, 2, 2] (by norm_num [pyMax])

/-! ### Frame lemmas: fields `update` never touches -/

theorem eg_update_frame (s : EGState) (arm : ℤ) (r : ℚ) (s1 : EGState)
    (h : EpsilonGreedy.update s arm r = some s1) :
    s1.true_means = s.true_means ∧ s1.estimated_means = s.estimated_means ∧
    s1.epsilon = s.epsilon ∧ s1.action_counts.length = s.action_counts.length ∧
    s1.action_values.length = s.action_values.length := by
  unfold EpsilonGreedy.update at h
  cases hc : pyGet s.action_counts arm with
  | none => rw [hc] at h; cases h
  | some c =>
    rw [hc] at h
    cases hv : pyGet s.action_values arm with
    | none => rw [hv] at h; cases h
    | some v =>
      rw [hv] at h
      have h1 := (Option.some.inj h).symm
      subst h1
      exact ⟨rfl, rfl, rfl, length_pySet _ _ _, length_pySet _ _ _⟩

theorem ts_update_frame (s : TSState) (arm : ℤ) (r : ℚ) (s1 : TSState)
    (h : ThompsonSampling.update s arm r = some s1) :
    s1.true_means = s.true_means ∧ s1.estimated_means = s.estimated_means ∧
    s1.action_counts = s.action_counts ∧ s1.alpha.length = s.alpha.length ∧
    s1.beta.length = s.beta.length := by
  unfold ThompsonSampling.update at h
  by_cases hr : r = 1
  · rw [if_pos hr] at h
    cases hA : pyGet s.alpha arm with
    | none => rw [hA] at h; cases h
    | some A =>
      rw [hA] at h
      have h1 := (Option.some.inj h).symm
      subst h1
      exact ⟨rfl, rfl, rfl, length_pySet _ _ _, rfl⟩
  · rw [if_neg hr] at h
    cases hB : pyGet s.beta arm with
    | none => rw [hB] at h; cases h
    | some B =>
      rw [hB] at h
      have h1 := (Option.some.inj h).symm
      subst h1
      exact ⟨rfl, rfl, rfl, rfl, length_pySet _ _ _⟩

theorem eg_experiment_frame (os : List (ℚ × ℕ)) : ∀ (s : EGState) (rws : List ℚ) (s1 : EGState),
    EpsilonGreedy.experiment s os = some (rws, s1) →
    s1.true_means = s.true_means ∧ s1.estimated_means = s.estimated_means ∧
    s1.epsilon = s.epsilon := by
  induction os with
  | nil =>
    intro s rws s1 h
    simp only [EpsilonGreedy.experiment, Option.some.injEq, Prod.mk.injEq] at h
    rw [← h.2]
    exact ⟨rfl, rfl, rfl⟩
  | cons o os ih =>
    intro s rws s1 h
    simp only [EpsilonGreedy.experiment] at h
    cases hrw : s.true_means.get? (EpsilonGreedy.pull s o.1 o.2).1 with
    | none => rw [hrw] at h; simp at h
    | some reward =>
      rw [hrw] at h
      simp only [] at h
      cases hup : EpsilonGreedy.update s ((EpsilonGreedy.pull s o.1 o.2).1 : ℤ) reward with
      | none => rw [hup] at h; simp at h
      | some s2 =>
        rw [hup] at h
        simp only [] at h
        cases hrec : EpsilonGreedy.experiment s2 os with
        | none => rw [hrec] at h; simp at h
        | some p =>
          obtain ⟨rws2, s3⟩ := p
          rw [hrec] at h
          simp only [Option.some.injEq, Prod.mk.injEq] at h
          obtain ⟨hf1, hf2, hf3, _, _⟩ := eg_update_frame s _ reward s2 hup
          obtain ⟨hg1, hg2, hg3⟩ := ih s2 rws2 s3 hrec
          rw [← h.2]
          exact ⟨hg1.trans hf1, hg2.trans hf2, hg3.trans hf3⟩

theorem ts_experiment_frame (os : List (List ℚ)) : ∀ (s : TSState) (rws : List ℚ) (s1 : TSState),
    ThompsonSampling.experiment s os = some (rws, s1) →
    s1.true_means = s.true_means ∧ s1.estimated_means = s.estimated_means ∧
    s1.action_counts = s.action_counts := by
  induction os with
  | nil =>
    intro s rws s1 h
    simp only [ThompsonSampling.experiment, Option.some.injEq, Prod.mk.injEq] at h
    rw [← h.2]
    exact ⟨rfl, rfl, rfl⟩
  | cons smp os ih =>
    intro s rws s1 h
    simp only [ThompsonSampling.experiment] at h
    cases hrw : s.true_means.get? (ThompsonSampling.pull s smp).1 with
    | none => rw [hrw] at h; simp at h
    | some reward =>
      rw [hrw] at h
      simp only [] at h
      cases hup : ThompsonSampling.update s ((ThompsonSampling.pull s smp).1 : ℤ) reward with
      | none => rw [hup] at h; simp at h
      | some s2 =>
        rw [hup] at h
        simp only [] at h
        cases hrec : ThompsonSampling.experiment s2 os with
        | none => rw [hrec] at h; simp at h
        | some p =>
          obtain ⟨rws2, s3⟩ := p
          rw [hrec] at h
          simp only [Option.some.injEq, Prod.mk.injEq] at h
          obtain ⟨hf1, hf2, hf3, _, _⟩ := ts_update_frame s _ reward s2 hup
          obtain ⟨hg1, hg2, hg3⟩ := ih s2 rws2 s3 hrec
          rw [← h.2]
          exact ⟨hg1.trans hf1, hg2.trans hf2, hg3.trans hf3⟩

/-- C10: `estimated_means` is set to K zeros by `Bandit.__init__` for both
variants and no operation ever writes to it: `pull`, `update` and
`experiment` all leave it equal to the all-zeros list of length K
(`report` reads state only). -/
theorem estimated_means_untouched :
    (∀ (tm : List ℚ) (eps : ℚ),
      (EpsilonGreedy.init tm eps).estimated_means = List.replicate tm.length 0) ∧
    (∀ (tm : List ℚ),
      (ThompsonSampling.init tm).estimated_means = List.replicate tm.length 0) ∧
    (∀ (s : EGState) (u : ℚ) (j : ℕ),
      (EpsilonGreedy.pull s u j).2.estimated_means = s.estimated_means) ∧
    (∀ (s : TSState) (samples : List ℚ),
      (ThompsonSampling.pull s samples).2.estimated_means = s.estimated_means) ∧
    (∀ (s : EGState) (arm : ℤ) (r : ℚ) (s1 : EGState),
      EpsilonGreedy.update s arm r = some s1 → s1.estimated_means = s.estimated_means) ∧
    (∀ (s : TSState) (arm : ℤ) (r : ℚ) (s1 : TSState),
      ThompsonSampling.update s arm r = some s1 → s1.estimated_means = s.estimated_means) ∧
    (∀ (tm : List ℚ) (eps : ℚ) (os : List (ℚ × ℕ)) (rws : List ℚ) (s1 : EGState),
      EpsilonGreedy.experiment (EpsilonGreedy.init tm eps) os = some (rws, s1) →
      s1.estimated_means = List.replicate tm.length 0) ∧
    (∀ (tm : List ℚ) (os : List (List ℚ)) (rws : List ℚ) (s1 : TSState),
      ThompsonSampling.experiment (ThompsonSampling.init tm) os = some (rws, s1) →
      s1.estimated_means = List.replicate tm.length 0) := by
  refine ⟨fun tm eps => rfl, fun tm => rfl, ?_, fun s samples => rfl, ?_, ?_, ?_, ?_⟩
  · intro s u j
    unfold EpsilonGreedy.pull
    split <;> rfl
  · intro s arm r s1 h
    exact (eg_update_frame s arm r s1 h).2.1
  · intro s arm r s1 h
    exact (ts_update_frame s arm r s1 h).2.1
  · intro tm eps os rws s1 h
    exact (eg_experiment_frame os (EpsilonGreedy.init tm eps) rws s1 h).2.1
  · intro tm os rws s1 h
    exact (ts_experiment_frame os (ThompsonSampling.init tm) rws s1 h).2.1

/-- Concrete instance of `estimated_means_untouched`: a two-trial
epsilon-greedy experiment and a one-step Thompson update both leave
`estimated_means` at `[0, 0]`. -/
theorem estimated_means_untouched_witness :
    ∃ (rws : List ℚ) (s1 : EGState) (s2 : TSState),
      EpsilonGreedy.experiment (EpsilonGreedy.init [0, 1] 0) [(0, 0), (0, 1)] =
        some (rws, s1) ∧
      s1.estimated_means = List.replicate ([0, 1] : List ℚ).length 0 ∧
      ThompsonSampling.update (ThompsonSampling.init [0, 1]) 0 1 = some s2 ∧
      s2.estimated_means = ([0, 0] : List ℚ) := by
  obtain ⟨rws, s1, hrun⟩ : ∃ rws s1,
      EpsilonGreedy.experiment (EpsilonGreedy.init [0, 1] 0) [(0, 0), (0, 1)] =
        some (rws, s1) := by
    refine ⟨[0, 0], ⟨[0, 1], [0, 0], [2, 0], [0, 0], 0⟩, ?_⟩
    norm_num [EpsilonGreedy.experiment, EpsilonGreedy.pull, EpsilonGreedy.update,
      EpsilonGreedy.init, pyGet, pySet, pyMax, List.replicate]
  obtain ⟨s2, hup⟩ : ∃ s2,
      ThompsonSampling.update (ThompsonSampling.init [0, 1]) 0 1 = some s2 := by
    refine ⟨⟨[0, 1], [0, 0], [0, 0], [2, 1], [1, 1]⟩, ?_⟩
    norm_num [ThompsonSampling.update, ThompsonSampling.init, pyGet, pySet, List.replicate]
  refine ⟨rws, s1, s2, hrun, ?_, hup, ?_⟩
  · exact estimated_means_untouched.2.2.2.2.2.2.1 [0, 1] 0 [(0, 0), (0, 1)] rws s1 hrun
  · have h := estimated_means_untouched.2.2.2.2.2.1 (ThompsonSampling.init [0, 1]) 0 1 s2 hup
    rw [h]
    rfl

theorem eg_pull_lt (s : EGState) (u : ℚ) (j : ℕ) (hj : j < s.true_means.length)
    (hlen : s.action_values.length = s.true_means.length) (hK : 0 < s.true_means.length) :
    (EpsilonGreedy.pull s u j).1 < s.true_means.length := by
  unfold EpsilonGreedy.pull
  split
  · simpa using hj
  · have hne : s.action_values ≠ [] := by
      intro hnil
      rw [hnil] at hlen
      simp at hlen
      omega
    have := List.indexOf_lt_length.2 (pyMax_mem s.action_values hne)
    simpa [hlen] using this

theorem ts_pull_lt (s : TSState) (samples : List ℚ)
    (hlen : samples.length = s.true_means.length) (hK : 0 < s.true_means.length) :
    (ThompsonSampling.pull s samples).1 < s.true_means.length := by
  have hne : samples ≠ [] := by
    intro hnil
    rw [hnil] at hlen
    simp at hlen
    omega
  have := List.indexOf_lt_length.2 (pyMax_mem samples hne)
  simpa [ThompsonSampling.pull, hlen] using this

/-- An epsilon-greedy experiment over any oracle list succeeds from any
well-formed state, returns one reward per trial, and each reward is the
`true_means` entry of the arm selected at that trial. -/
theorem eg_experiment_spec (os : List (ℚ × ℕ)) : ∀ (s : EGState),
    0 < s.true_means.length →
    s.action_counts.length = s.true_means.length →
    s.action_values.length = s.true_means.length →
    (∀ o ∈ os, o.2 < s.true_means.length) →
    ∃ (rws : List ℚ) (s1 : EGState) (arms : List ℕ),
      EpsilonGreedy.experiment s os = some (rws, s1) ∧
      rws.length = os.length ∧ arms.length = os.length ∧
      (∀ a ∈ arms, a < s.true_means.length) ∧
      rws = arms.map (fun a => s.true_means.getD a 0) ∧
      (∀ r ∈ rws, r ∈ s.true_means) := by
  induction os with
  | nil =>
    intro s _ _ _ _
    exact ⟨[], s, [], rfl, rfl, rfl, by simp, by simp, by simp⟩
  | cons o os ih =>
    intro s hK hc hv hdraw
    have harm : (EpsilonGreedy.pull s o.1 o.2).1 < s.true_means.length :=
      eg_pull_lt s o.1 o.2 (hdraw o (List.mem_cons_self _ _)) hv hK
    obtain ⟨reward, hrw⟩ := exists_get?_of_lt s.true_means _ harm
    obtain ⟨c, hcget⟩ := exists_get?_of_lt s.action_counts _ (by rw [hc]; exact harm)
    obtain ⟨v, hvget⟩ := exists_get?_of_lt s.action_values _ (by rw [hv]; exact harm)
    have hstep := eg_update_eq s _ reward c v hcget hvget
    obtain ⟨s', hs'⟩ : ∃ s',
        EpsilonGreedy.update s ((EpsilonGreedy.pull s o.1 o.2).1 : ℤ) reward = some s' :=
      ⟨_, hstep⟩
    obtain ⟨htm', _, _, hclen', hvlen'⟩ := eg_update_frame s _ reward s' hs'
    have hK' : 0 < s'.true_means.length := by rw [htm']; exact hK
    have hc' : s'.action_counts.length = s'.true_means.length := by
      rw [hclen', htm']; exact hc
    have hv' : s'.action_values.length = s'.true_means.length := by
      rw [hvlen', htm']; exact hv
    have hdraw' : ∀ o' ∈ os, o'.2 < s'.true_means.length := by
      rw [htm']
      exact fun o' ho' => hdraw o' (List.mem_cons_of_mem _ ho')
    obtain ⟨rws2, s2, arms2, hrun2, hlen2, halen2, harms2, hmap2, hmem2⟩ :=
      ih s' hK' hc' hv' hdraw'
    have hexp : EpsilonGreedy.experiment s (o :: os) = some (reward :: rws2, s2) := by
      simp only [EpsilonGreedy.experiment, hrw, hs', hrun2]
    refine ⟨reward :: rws2, s2, (EpsilonGreedy.pull s o.1 o.2).1 :: arms2, hexp,
      by simp [hlen2], by simp [halen2], ?_, ?_, ?_⟩
    · intro a ha
      rcases List.mem_cons.1 ha with rfl | hmem
      · exact harm
      · rw [← htm']
        exact harms2 a hmem
    · rw [List.map_cons]
      have hhead : s.true_means.getD (EpsilonGreedy.pull s o.1 o.2).1 0 = reward := by
        show (s.true_means.get? (EpsilonGreedy.pull s o.1 o.2).1).getD 0 = reward
        rw [hrw]
        rfl
      rw [hhead, ← htm', ← hmap2]
    · intro r hr
      rcases List.mem_cons.1 hr with rfl | hmem
      · exact List.get?_mem hrw
      · rw [← htm']
        exact hmem2 r hmem

/-- A Thompson-sampling experiment over any oracle list of per-trial Beta
draws succeeds from any well-formed state, returns one reward per trial, and
each reward is the `true_means` entry of the selected arm. -/
theorem ts_experiment_spec (os : List (List ℚ)) : ∀ (s : TSState),
    0 < s.true_means.length →
    s.alpha.length = s.true_means.length →
    s.beta.length = s.true_means.length →
    (∀ smp ∈ os, smp.length = s.true_means.length) →
    ∃ (rws : List ℚ) (s1 : TSState) (arms : List ℕ),
      ThompsonSampling.experiment s os = some (rws, s1) ∧
      rws.length = os.length ∧ arms.length = os.length ∧
      (∀ a ∈ arms, a < s.true_means.length) ∧
      rws = arms.map (fun a => s.true_means.getD a 0) ∧
      (∀ r ∈ rws, r ∈ s.true_means) := by
  induction os with
  | nil =>
    intro s _ _ _ _
    exact ⟨[], s, [], rfl, rfl, rfl, by simp, by simp, by simp⟩
  | cons smp os ih =>
    intro s hK hα hβ hdraw
    have harm : (ThompsonSampling.pull s smp).1 < s.true_means.length :=
      ts_pull_lt s smp (hdraw smp (List.mem_cons_self _ _)) hK
    obtain ⟨reward, hrw⟩ := exists_get?_of_lt s.true_means _ harm
    obtain ⟨s', hs'⟩ : ∃ s',
        ThompsonSampling.update s ((ThompsonSampling.pull s smp).1 : ℤ) reward = some s' := by
      by_cases hr : reward = 1
      · obtain ⟨A, hA⟩ :=
          exists_get?_of_lt s.alpha (ThompsonSampling.pull s smp).1 (by rw [hα]; exact harm)
        subst hr
        exact ⟨_, ts_update_eq_one s _ A hA⟩
      · obtain ⟨B, hB⟩ :=
          exists_get?_of_lt s.beta (ThompsonSampling.pull s smp).1 (by rw [hβ]; exact harm)
        exact ⟨_, ts_update_eq_ne s _ reward hr B hB⟩
    obtain ⟨htm', _, _, hαlen', hβlen'⟩ := ts_update_frame s _ reward s' hs'
    have hK' : 0 < s'.true_means.length := by rw [htm']; exact hK
    have hα' : s'.alpha.length = s'.true_means.length := by rw [hαlen', htm']; exact hα
    have hβ' : s'.beta.length = s'.true_means.length := by rw [hβlen', htm']; exact hβ
    have hdraw' : ∀ smp' ∈ os, smp'.length = s'.true_means.length := by
      rw [htm']
      exact fun smp' hsmp => hdraw smp' (List.mem_cons_of_mem _ hsmp)
    obtain ⟨rws2, s2, arms2, hrun2, hlen2, halen2, harms2, hmap2, hmem2⟩ :=
      ih s' hK' hα' hβ' hdraw'
    have hexp : ThompsonSampling.experiment s (smp :: os) = some (reward :: rws2, s2) := by
      simp only [ThompsonSampling.experiment, hrw, hs', hrun2]
    refine ⟨reward :: rws2, s2, (ThompsonSampling.pull s smp).1 :: arms2, hexp,
      by simp [hlen2], by simp [halen2], ?_, ?_, ?_⟩
    · intro a ha
      rcases List.mem_cons.1 ha with rfl | hmem
      · exact harm
      · rw [← htm']
        exact harms2 a hmem
    · rw [List.map_cons]
      have hhead : s.true_means.getD (ThompsonSampling.pull s smp).1 0 = reward := by
        show (s.true_means.get? (ThompsonSampling.pull s smp).1).getD 0 = reward
        rw [hrw]
        rfl
      rw [hhead, ← htm', ← hmap2]
    · intro r hr
      rcases List.mem_cons.1 hr with rfl | hmem
      · exact List.get?_mem hrw
      · rw [← htm']
        exact hmem2 r hmem

/-- C5: for both variants, `experiment` performs select–observe–update per
trial (as embedded in `EpsilonGreedy.experiment` / `ThompsonSampling.experiment`),
returns exactly one reward per trial (length = `num_trials`, the length of
the oracle list), and the t-th reward is `true_means[arm_t]` for the arm
selected at trial t — in particular every reward is an element of
`true_means`. -/
theorem experiment_rewards_are_true_means :
    (∀ (os : List (ℚ × ℕ)) (s : EGState),
      0 < s.true_means.length →
      s.action_counts.length = s.true_means.length →
      s.action_values.length = s.true_means.length →
      (∀ o ∈ os, o.2 < s.true_means.length) →
      ∃ (rws : List ℚ) (s1 : EGState) (arms : List ℕ),
        EpsilonGreedy.experiment s os = some (rws, s1) ∧
        rws.length = os.length ∧ arms.length = os.length ∧
        (∀ a ∈ arms, a < s.true_means.length) ∧
        rws = arms.map (fun a => s.true_means.getD a 0) ∧
        (∀ r ∈ rws, r ∈ s.true_means)) ∧
    (∀ (os : List (List ℚ)) (s : TSState),
      0 < s.true_means.length →
      s.alpha.length = s.true_means.length →
      s.beta.length = s.true_means.length →
      (∀ smp ∈ os, smp.length = s.true_means.length) →
      ∃ (rws : List ℚ) (s1 : TSState) (arms : List ℕ),
        ThompsonSampling.experiment s os = some (rws, s1) ∧
        rws.length = os.length ∧ arms.length = os.length ∧
        (∀ a ∈ arms, a < s.true_means.length) ∧
        rws = arms.map (fun a => s.true_means.getD a 0) ∧
        (∀ r ∈ rws, r ∈ s.true_means)) :=
  ⟨fun os s => eg_experiment_spec os s, fun os s => ts_experiment_spec os s⟩

/-- Concrete instances of `experiment_rewards_are_true_means`: a two-trial
epsilon-greedy run and a one-trial Thompson run on two arms. -/
theorem experiment_rewards_are_true_means_witness :
    (∃ (rws : List ℚ) (s1 : EGState) (arms : List ℕ),
      EpsilonGreedy.experiment (⟨[5, 7], [0, 0], [0, 0], [0, 0], 1 / 2⟩ : EGState)
        [(0, 1), (1, 0)] = some (rws, s1) ∧
      rws.length = 2 ∧ arms.length = 2 ∧
      (∀ a ∈ arms, a < 2) ∧
      rws = arms.map (fun a => ([5, 7] : List ℚ).getD a 0) ∧
      (∀ r ∈ rws, r ∈ ([5, 7] : List ℚ))) ∧
    (∃ (rws : List ℚ) (s1 : TSState) (arms : List ℕ),
      ThompsonSampling.experiment (⟨[0, 1], [0, 0], [0, 0], [1, 1], [1, 1]⟩ : TSState)
        [[1, 0]] = some (rws, s1) ∧
      rws.length = 1 ∧ arms.length = 1 ∧
      (∀ a ∈ arms, a < 2) ∧
      rws = arms.map (fun a => ([0, 1] : List ℚ).getD a 0) ∧
      (∀ r ∈ rws, r ∈ ([0, 1] : List ℚ))) :=
  ⟨experiment_rewards_are_true_means.1 [(0, 1), (1, 0)]
      (⟨[5, 7], [0, 0], [0, 0], [0, 0], 1 / 2⟩ : EGState)
      (by decide) (by decide) (by decide) (by decide),
   experiment_rewards_are_true_means.2 [[1, 0]]
      (⟨[0, 1], [0, 0], [0, 0], [1, 1], [1, 1]⟩ : TSState)
      (by decide) (by decide) (by decide) (by decide)⟩
